import Mathlib

/-!
Verification development for the diff/hunk model and hunk-level staging
engine of the git-frisky desktop backend
(`src/apps/desktop/src-tauri/src/api/repo.rs` and
`src/apps/desktop/src-tauri/src/domain/types.rs`).

The pure data model and the pure computations (diff-event folding, patch
synthesis, status classification, limit/root selection for the log) are
embedded directly from the Rust source.  The external libgit2 primitives
(`Diff::from_buffer` + `Repository::apply`, and `revwalk`) are not part of
the repository; where a claim depends on them they are modelled from the
specification's interface description, and each such definition carries a
doc comment starting with `Modelled from the spec:`.
-/

namespace GitFrisky

/-- Line kind of a diff line, from `domain/types.rs` (`LineType`). -/
inductive LineType where
  | Context
  | Addition
  | Deletion
deriving DecidableEq, Repr

/-- A single diff line, from `domain/types.rs` (`DiffLine`). -/
structure DiffLine where
  content : String
  line_type : LineType
  old_lineno : Option Nat
  new_lineno : Option Nat
deriving DecidableEq, Repr

/-- A diff hunk, from `domain/types.rs` (`DiffHunk`). -/
structure DiffHunk where
  header : String
  old_start : Nat
  old_lines : Nat
  new_start : Nat
  new_lines : Nat
  lines : List DiffLine
deriving DecidableEq, Repr

/-- File status classification, from `domain/types.rs` (`FileStatus`). -/
inductive FileStatus where
  | A  -- Added
  | M  -- Modified
  | D  -- Deleted
  | R  -- Renamed
  | U  -- Untracked
  | C  -- Conflicted
deriving DecidableEq, Repr

/-- A changed file entry, from `domain/types.rs` (`FileChange`). -/
structure FileChange where
  path : String
  status : FileStatus
  old_path : Option String
  additions : Nat
  deletions : Nat
deriving DecidableEq, Repr

/-- Status payload, from `domain/types.rs` (`StatusPayload`). -/
structure StatusPayload where
  unstaged : List FileChange
  staged : List FileChange
deriving DecidableEq, Repr

/-- `get_untracked_file_diff` (repo.rs lines 10-47): the file content has
already been read and split into lines; the function builds one hunk whose
lines are all additions, with `new_lineno = index + 1`. -/
def get_untracked_file_diff (lines : List String) : List DiffHunk :=
  let line_count := lines.length
  let hunk_lines := lines.enum.map (fun p =>
    { content := p.2
      line_type := LineType.Addition
      old_lineno := none
      new_lineno := some (p.1 + 1) : DiffLine })
  [{ header := "@@ -0,0 +1," ++ toString line_count ++ " @@"
     old_start := 0
     old_lines := 0
     new_start := 1
     new_lines := line_count
     lines := hunk_lines : DiffHunk }]

/-! ## Diff extractor: the `diff.foreach` fold of `get_diff` (repo.rs 279-368)

The libgit2 callbacks deliver, per file, a sequence of hunk-boundary events
(each carrying the raw header text and the four header integers) interleaved
with line events (each carrying an origin marker and the line content).  The
fold below is the direct translation of the closure bodies: the mutable
cells `hunks`, `current_hunk`, `old_lineno`, `new_lineno` become the fields
of `FoldState`. -/

/-- The data libgit2 hands to the hunk callback (`DiffHunk` of git2). -/
structure HunkInfo where
  header : String
  old_start : Nat
  old_lines : Nat
  new_start : Nat
  new_lines : Nat
deriving DecidableEq, Repr

/-- One callback event of `diff.foreach`: a hunk boundary or a line. -/
inductive DiffEvent where
  | hunkStart (info : HunkInfo)
  | line (origin : Char) (content : String)
deriving DecidableEq, Repr

/-- The mutable accumulator cells of the `get_diff` callbacks. -/
structure FoldState where
  hunks : List DiffHunk
  current : Option DiffHunk
  old_lineno : Nat
  new_lineno : Nat
deriving DecidableEq, Repr

/-- Rust `str::trim` on the header text (repo.rs 306): strip leading and
trailing whitespace. -/
def rustTrim (s : String) : String :=
  String.mk (((s.data.dropWhile Char.isWhitespace).reverse.dropWhile
    Char.isWhitespace).reverse)

/-- Rust `str::trim_end_matches('\n')` (repo.rs 348): strip every trailing
newline character. -/
def trimEndNewlines (s : String) : String :=
  String.mk ((s.data.reverse.dropWhile (· == '\n')).reverse)

/-- One step of the `get_diff` callback fold (repo.rs 297-355). -/
def processEvent (st : FoldState) (ev : DiffEvent) : FoldState :=
  match ev with
  | .hunkStart info =>
      { hunks := st.hunks ++ st.current.toList
        current := some { header := rustTrim info.header
                          old_start := info.old_start
                          old_lines := info.old_lines
                          new_start := info.new_start
                          new_lines := info.new_lines
                          lines := [] }
        old_lineno := info.old_start
        new_lineno := info.new_start }
  | .line origin content =>
      match st.current with
      | none => st
      | some h =>
        if origin = '+' ∨ origin = '>' then
          { st with
              current := some { h with lines := h.lines ++
                [⟨trimEndNewlines content, LineType.Addition, none,
                  some st.new_lineno⟩] }
              new_lineno := st.new_lineno + 1 }
        else if origin = '-' ∨ origin = '<' then
          { st with
              current := some { h with lines := h.lines ++
                [⟨trimEndNewlines content, LineType.Deletion,
                  some st.old_lineno, none⟩] }
              old_lineno := st.old_lineno + 1 }
        else if origin = ' ' ∨ origin = '=' then
          { st with
              current := some { h with lines := h.lines ++
                [⟨trimEndNewlines content, LineType.Context,
                  some st.old_lineno, some st.new_lineno⟩] }
              old_lineno := st.old_lineno + 1
              new_lineno := st.new_lineno + 1 }
        else st

/-- The whole callback sequence followed by the final flush
(repo.rs 294-361). -/
def runDiffFold (events : List DiffEvent) : List DiffHunk :=
  let st := events.foldl processEvent ⟨[], none, 0, 0⟩
  st.hunks ++ st.current.toList

/-- `get_diff` (repo.rs 249-369), with the repository state abstracted to
its observable inputs: whether the path has an index entry (`is_tracked`,
repo.rs 255), the file's lines (read from disk in the untracked case), and
the callback events delivered by the underlying diff primitive. -/
def get_diff (staged is_tracked : Bool) (file_lines : List String)
    (events : List DiffEvent) : List DiffHunk :=
  if !staged && !is_tracked then get_untracked_file_diff file_lines
  else runDiffFold events

/-! ## Patch synthesizer: `stage_hunk` / `unstage_hunk` patch text
(repo.rs 513-537 and 645-678) -/

/-- Rust `content.ends_with('\n')` (repo.rs 534, 675). -/
def endsWithNewline (s : String) : Bool :=
  s.data.getLast? == some '\n'

/-- Forward line marker (repo.rs 527-531). -/
def forward_line_char : LineType → Char
  | .Addition => '+'
  | .Deletion => '-'
  | .Context => ' '

/-- Inverted line marker used for unstaging (repo.rs 668-672). -/
def inverse_line_char : LineType → Char
  | .Addition => '-'
  | .Deletion => '+'
  | .Context => ' '

/-- Rendering of one hunk line into the patch text: marker, content, and a
newline when the stored content lacks one (repo.rs 532-536, 673-677). -/
def renderHunkLine (c : Char) (l : DiffLine) : String :=
  String.singleton c ++ l.content ++
    (if endsWithNewline l.content then "" else "\n")

/-- The shared file header of both synthesized patches
(repo.rs 517-519, 648-650). -/
def patchFileHeader (file_path : String) : String :=
  "diff --git a/" ++ file_path ++ " b/" ++ file_path ++ "\n" ++
  "--- a/" ++ file_path ++ "\n" ++
  "+++ b/" ++ file_path ++ "\n"

/-- The unified-diff document `stage_hunk` synthesizes (repo.rs 513-537). -/
def stage_hunk_patch (file_path : String) (hunk : DiffHunk) : String :=
  hunk.lines.foldl
    (fun acc l => acc ++ renderHunkLine (forward_line_char l.line_type) l)
    (patchFileHeader file_path ++ hunk.header ++ "\n")

/-- The reversed hunk header `unstage_hunk` builds from the integer fields
(repo.rs 655-661). -/
def reversed_header (hunk : DiffHunk) : String :=
  "@@ -" ++ toString hunk.new_start ++ "," ++ toString hunk.new_lines ++
  " +" ++ toString hunk.old_start ++ "," ++ toString hunk.old_lines ++ " @@"

/-- The unified-diff document `unstage_hunk` synthesizes
(repo.rs 645-678). -/
def unstage_hunk_patch (file_path : String) (hunk : DiffHunk) : String :=
  hunk.lines.foldl
    (fun acc l => acc ++ renderHunkLine (inverse_line_char l.line_type) l)
    (patchFileHeader file_path ++ reversed_header hunk ++ "\n")

/-! ## Staging engine: modelled patch application

`Diff::from_buffer` + `Repository::apply(_, ApplyLocation::Index, _)` are
libgit2 primitives, not code of this repository. -/

/-- One parsed patch line: its marker character and its content. -/
structure PatchLine where
  mark : Char
  content : String
deriving DecidableEq, Repr

/-- Old-side image of a parsed hunk: contents of its `-` and ` ` lines. -/
def hunkOldSide (plines : List PatchLine) : List String :=
  plines.filterMap
    (fun l => if l.mark = '-' ∨ l.mark = ' ' then some l.content else none)

/-- New-side image of a parsed hunk: contents of its `+` and ` ` lines. -/
def hunkNewSide (plines : List PatchLine) : List String :=
  plines.filterMap
    (fun l => if l.mark = '+' ∨ l.mark = ' ' then some l.content else none)

/-- Modelled from the spec: the external `applyPatch(patchDocument,
target=index)` primitive (spec section 6), which the repository calls as
`Diff::from_buffer` followed by `repo.apply(_, ApplyLocation::Index, _)`
(repo.rs 540-543, 681-684) and which is absent from `src/`.  A hunk whose
line counts contradict its header is rejected as structurally inconsistent
(spec section 4.2); otherwise the old-side image must match the target
content at the position given by the header's old pair, the degenerate
`old_count = 0` position denoting insertion after line `old_start`, and on
any mismatch the application fails with no partial effect (spec sections
4.3 and 7). -/
def effStart (start count : Nat) : Nat :=
  if count = 0 then start else start - 1

def applyHunkLines (old_start old_count new_count : Nat)
    (plines : List PatchLine) (content : List String) :
    Except String (List String) :=
  let oldSide := hunkOldSide plines
  let newSide := hunkNewSide plines
  if oldSide.length ≠ old_count ∨ newSide.length ≠ new_count then
    .error "corrupt patch"
  else
    let start := effStart old_start old_count
    if content.length < start then .error "hunk does not apply"
    else if (content.drop start).take old_count ≠ oldSide then
      .error "hunk does not apply"
    else .ok (content.take start ++ newSide ++ content.drop (start + old_count))

/-- The parsed lines of the forward patch of `stage_hunk`
(repo.rs 526-537). -/
def forwardPatchLines (hunk : DiffHunk) : List PatchLine :=
  hunk.lines.map (fun l => ⟨forward_line_char l.line_type, l.content⟩)

/-- The parsed lines of the inverted patch of `unstage_hunk`
(repo.rs 667-678). -/
def inversePatchLines (hunk : DiffHunk) : List PatchLine :=
  hunk.lines.map (fun l => ⟨inverse_line_char l.line_type, l.content⟩)

/-- `stage_hunk` (repo.rs 509-546) acting on the index content: the forward
patch positions its old side at the hunk's `(old_start, old_lines)` pair
and its parsed lines carry the forward markers. -/
def stage_hunk (hunk : DiffHunk) (index : List String) :
    Except String (List String) :=
  applyHunkLines hunk.old_start hunk.old_lines hunk.new_lines
    (forwardPatchLines hunk) index

/-- `unstage_hunk` (repo.rs 640-687) acting on the index content: the
reversed header swaps the pairs, so the inverted patch positions its old
side at `(new_start, new_lines)` and its parsed lines carry the inverted
markers. -/
def unstage_hunk (hunk : DiffHunk) (index : List String) :
    Except String (List String) :=
  applyHunkLines hunk.new_start hunk.new_lines hunk.old_lines
    (inversePatchLines hunk) index

/-- The index content after a staging call: unchanged when the call
errored. -/
def indexAfter (r : Except String (List String)) (index : List String) :
    List String :=
  match r with
  | .ok i => i
  | .error _ => index

/-! ## Status aggregator (repo.rs 141-246) -/

/-- The git2 `Status` bits the aggregator inspects. -/
structure StatusFlags where
  index_new : Bool
  index_modified : Bool
  index_deleted : Bool
  index_renamed : Bool
  wt_new : Bool
  wt_modified : Bool
  wt_deleted : Bool
  wt_renamed : Bool
  conflicted : Bool
deriving DecidableEq, Repr

/-- The `FileChange` records the status loop builds: `old_path` always
`None`, counts always zero (repo.rs 159-161). -/
def fileChange (path : String) (s : FileStatus) : FileChange :=
  ⟨path, s, none, 0, 0⟩

/-- The per-entry body of the status loop (repo.rs 155-243): one
`if`/`else if` chain for the staged bucket, an independent chain for the
unstaged bucket, then the conflict check. -/
def classifyEntry (path : String) (f : StatusFlags) :
    List FileChange × List FileChange :=
  let staged :=
    if f.index_new then [fileChange path .A]
    else if f.index_modified then [fileChange path .M]
    else if f.index_deleted then [fileChange path .D]
    else if f.index_renamed then [fileChange path .R]
    else []
  let wt :=
    if f.wt_new then [fileChange path .U]
    else if f.wt_modified then [fileChange path .M]
    else if f.wt_deleted then [fileChange path .D]
    else if f.wt_renamed then [fileChange path .R]
    else []
  (staged, wt ++ (if f.conflicted then [fileChange path .C] else []))

/-- `status` (repo.rs 141-246) over the entry list the primitive reports. -/
def status (entries : List (String × StatusFlags)) : StatusPayload :=
  let res := entries.foldl
    (fun acc e =>
      let c := classifyEntry e.1 e.2
      (acc.1 ++ c.1, acc.2 ++ c.2))
    ([], [])
  { unstaged := res.2, staged := res.1 }

/-! ## Commit graph reader (repo.rs 549-637) -/

/-- A commit of the underlying store, with the fields the log claims
mention. -/
structure CommitData where
  oid : String
  timestamp : Int
  parents : List String
deriving DecidableEq, Repr

/-- Lookup of a commit by id in the store. -/
def commitLookup (store : List CommitData) (oid : String) :
    Option CommitData :=
  store.find? (fun c => c.oid == oid)

/-- Fuel-bounded ancestor reachability in the commit graph. -/
def reachableFrom (store : List CommitData) :
    Nat → List String → String → Bool
  | 0, frontier, target => frontier.contains target
  | fuel+1, frontier, target =>
      frontier.contains target ||
        reachableFrom store fuel
          (frontier.flatMap
            (fun o => ((commitLookup store o).map (·.parents)).getD []))
          target

/-- Modelled from the spec: the external `walkCommits(roots,
order=time-descending)` primitive (spec section 6), realized in the
repository by a libgit2 `revwalk` with `Sort::TIME` (repo.rs 557-558),
absent from `src/`: the commits reachable from the roots, in
time-descending order. -/
def walkCommits (store : List CommitData) (roots : List String) :
    List CommitData :=
  (store.filter (fun c => reachableFrom store store.length roots c.oid)
    ).insertionSort (fun a b => b.timestamp ≤ a.timestamp)

/-- `log` (repo.rs 549-637) with the repository state abstracted to its
observable inputs: the targets of the local and remote branch tips
(repo.rs 565-588), the target of `HEAD` (repo.rs 592), and the commit
store walked by the revwalk. -/
def log (store : List CommitData) (local_tips remote_tips : List String)
    (head : Option String) (limit : Option Nat) : List CommitData :=
  let lim := limit.getD 500
  let roots := local_tips ++ remote_tips
  let has_commits := !roots.isEmpty
  let roots :=
    if has_commits then roots
    else match head with
      | some o => [o]
      | none => []
  if roots.isEmpty then [] else (walkCommits store roots).take lim

/-! ## Specification-side descriptions used for refinement claims -/

/-- The forward unified-diff document as the specification words it
(spec section 4.2, claim C5): join of the three file header lines, the
hunk header line, and one rendered line per hunk line with the forward
marker mapping. -/
def stagePatchSpecText (p : String) (h : DiffHunk) : String :=
  String.join
    (["diff --git a/" ++ p ++ " b/" ++ p ++ "\n",
      "--- a/" ++ p ++ "\n",
      "+++ b/" ++ p ++ "\n",
      h.header ++ "\n"] ++
     h.lines.map (fun l =>
       (match l.line_type with
        | .Addition => "+"
        | .Deletion => "-"
        | .Context => " ") ++ l.content ++
       (if endsWithNewline l.content then "" else "\n")))

/-- The inverted unified-diff document as the specification words it
(spec section 4.2, claim C4): the same file header lines as the forward
patch, the hunk header with the old/new position+count pairs swapped, and
the swapped line-marker mapping. -/
def unstagePatchSpecText (p : String) (h : DiffHunk) : String :=
  String.join
    (["diff --git a/" ++ p ++ " b/" ++ p ++ "\n",
      "--- a/" ++ p ++ "\n",
      "+++ b/" ++ p ++ "\n",
      "@@ -" ++ toString h.new_start ++ "," ++ toString h.new_lines ++
        " +" ++ toString h.old_start ++ "," ++ toString h.old_lines ++
        " @@" ++ "\n"] ++
     h.lines.map (fun l =>
       (match l.line_type with
        | .Addition => "-"
        | .Deletion => "+"
        | .Context => " ") ++ l.content ++
       (if endsWithNewline l.content then "" else "\n")))

/-- First-match-wins selection over a flag/status priority list, as the
specification words the status classification (spec section 4.4). -/
def firstFlagStatus (cases : List (Bool × FileStatus)) : Option FileStatus :=
  (cases.find? (fun c => c.1)).map (·.2)

/-- The per-entry classification as the specification words it (claim C6):
staged bucket from the index-flag priority list, unstaged bucket
independently from the working-tree priority list, and a conflicted path
additionally appended to the unstaged bucket. -/
def classifyEntrySpec (path : String) (f : StatusFlags) :
    List FileChange × List FileChange :=
  let staged := (firstFlagStatus
    [(f.index_new, .A), (f.index_modified, .M),
     (f.index_deleted, .D), (f.index_renamed, .R)]).toList.map
    (fileChange path)
  let wt := (firstFlagStatus
    [(f.wt_new, .U), (f.wt_modified, .M),
     (f.wt_deleted, .D), (f.wt_renamed, .R)]).toList.map (fileChange path)
  (staged, wt ++ (if f.conflicted then [fileChange path .C] else []))

/-- Strip at most one trailing newline, as claim C7 words the content
handling (`the stored content equals the event content with any single
trailing newline stripped`). -/
def stripSingleTrailingNewline (s : String) : String :=
  if endsWithNewline s then String.mk s.data.dropLast else s

/-- A diff line counted by the new side of a hunk (Addition or Context). -/
def isNewSideLine (l : DiffLine) : Bool :=
  match l.line_type with
  | .Addition => true
  | .Context => true
  | .Deletion => false

/-- A diff line counted by the old side of a hunk (Deletion or Context). -/
def isOldSideLine (l : DiffLine) : Bool :=
  match l.line_type with
  | .Deletion => true
  | .Context => true
  | .Addition => false

/-- The data-model invariant of claim C8: Addition+Context lines reconcile
with `new_lines` and Deletion+Context lines with `old_lines`. -/
def hunkCountsConsistent (h : DiffHunk) : Prop :=
  h.lines.countP isNewSideLine = h.new_lines ∧
  h.lines.countP isOldSideLine = h.old_lines

/-- Origin markers consumed by the new-line counter (`+`, `>`, ` `, `=`). -/
def isNewOrigin (c : Char) : Bool :=
  c == '+' || c == '>' || c == ' ' || c == '='

/-- Origin markers consumed by the old-line counter (`-`, `<`, ` `, `=`). -/
def isOldOrigin (c : Char) : Bool :=
  c == '-' || c == '<' || c == ' ' || c == '='

/-- The callback events of one hunk: its boundary event followed by its
line events. -/
def segEvents (info : HunkInfo) (ls : List (Char × String)) :
    List DiffEvent :=
  DiffEvent.hunkStart info :: ls.map (fun p => DiffEvent.line p.1 p.2)

/-- The callback events of a whole per-file diff: one segment per hunk. -/
def segsEvents (segs : List (HunkInfo × List (Char × String))) :
    List DiffEvent :=
  segs.flatMap (fun s => segEvents s.1 s.2)

/-- A well-formed hunk segment, as the underlying diff primitive delivers
it: the line events classified to each side tally with the header's
counts. -/
def segWellFormed (seg : HunkInfo × List (Char × String)) : Prop :=
  seg.2.countP (fun p => isNewOrigin p.1) = seg.1.new_lines ∧
  seg.2.countP (fun p => isOldOrigin p.1) = seg.1.old_lines

instance (seg : HunkInfo × List (Char × String)) :
    Decidable (segWellFormed seg) := by
  unfold segWellFormed
  infer_instance

instance (h : DiffHunk) : Decidable (hunkCountsConsistent h) := by
  unfold hunkCountsConsistent
  infer_instance

/-! ## Helper lemmas -/

theorem string_data_ext {s t : String} (h : s.data = t.data) : s = t := by
  cases s; cases t; exact congrArg String.mk h

theorem string_foldl_append : ∀ (l : List String) (a b : String),
    l.foldl (fun r s => r ++ s) (a ++ b) = a ++ l.foldl (fun r s => r ++ s) b
  | [], _, _ => rfl
  | s :: l, a, b => by
      rw [List.foldl_cons, List.foldl_cons, String.append_assoc,
        string_foldl_append l a (b ++ s)]

theorem join_cons (s : String) (l : List String) :
    String.join (s :: l) = s ++ String.join l := by
  unfold String.join
  rw [List.foldl_cons, ← string_foldl_append l s ""]
  have he : ("" : String) ++ s = s ++ "" := by simp
  rw [he]

/-- A foldl that appends a rendering of each element equals the initial
string followed by the join of the renderings. -/
theorem foldl_append_render (g : DiffLine → String) :
    ∀ (ls : List DiffLine) (init : String),
      ls.foldl (fun acc l => acc ++ g l) init = init ++ String.join (ls.map g)
  | [], init => by simp [String.join]
  | l :: ls, init => by
      rw [List.foldl_cons, foldl_append_render g ls (init ++ g l),
        List.map_cons, join_cons, String.append_assoc]

/-- Claim C5: for every path and hunk, `stage_hunk` synthesizes exactly the
unified-diff document made of the three file header lines, the hunk's
stored header line, and each hunk line prefixed `+` for Addition, `-` for
Deletion, ` ` for Context, with a newline appended to any line whose stored
content does not already end in one. -/
theorem claim_C5 (p : String) (h : DiffHunk) :
    stage_hunk_patch p h = stagePatchSpecText p h := by
  unfold stage_hunk_patch stagePatchSpecText patchFileHeader
  rw [foldl_append_render]
  have hmap : h.lines.map (fun l =>
      (match l.line_type with
       | LineType.Addition => "+"
       | LineType.Deletion => "-"
       | LineType.Context => " ") ++ l.content ++
      (if endsWithNewline l.content then "" else "\n")) =
      h.lines.map (fun l => renderHunkLine (forward_line_char l.line_type) l) := by
    apply List.map_congr_left
    intro l _
    rcases l with ⟨c, t, o, n⟩
    cases t <;> rfl
  simp only [List.cons_append, List.nil_append]
  rw [join_cons, join_cons, join_cons, join_cons, hmap]
  apply string_data_ext
  simp [String.data_append, List.append_assoc]

/-- Claim C4: for every path and hunk, `unstage_hunk` synthesizes the patch
whose hunk header is the stored old/new position+count pairs swapped
(`@@ -new_start,new_lines +old_start,old_lines @@`), whose line markers use
the swapped mapping Addition to `-`, Deletion to `+`, Context to a space,
and whose file header lines are those of the forward patch. -/
theorem claim_C4 (p : String) (h : DiffHunk) :
    unstage_hunk_patch p h = unstagePatchSpecText p h := by
  unfold unstage_hunk_patch unstagePatchSpecText patchFileHeader
    reversed_header
  rw [foldl_append_render]
  have hmap : h.lines.map (fun l =>
      (match l.line_type with
       | LineType.Addition => "-"
       | LineType.Deletion => "+"
       | LineType.Context => " ") ++ l.content ++
      (if endsWithNewline l.content then "" else "\n")) =
      h.lines.map (fun l => renderHunkLine (inverse_line_char l.line_type) l) := by
    apply List.map_congr_left
    intro l _
    rcases l with ⟨c, t, o, n⟩
    cases t <;> rfl
  simp only [List.cons_append, List.nil_append]
  rw [join_cons, join_cons, join_cons, join_cons, hmap]
  apply string_data_ext
  simp [String.data_append, List.append_assoc]

/-- Claim C10 (corrected), counterexample to the claim as stated: two hunks
that agree on every field except the stored header string synthesize
different `stage_hunk` patch documents, because `stage_hunk` embeds the
stored header string verbatim (repo.rs 522). -/
theorem claim_C10_counterexample :
    (DiffHunk.mk "@@ -1,1 +1,1 @@" 1 1 1 1
        [⟨"x", LineType.Context, some 1, some 1⟩]).old_start =
      (DiffHunk.mk "@@ -9,1 +9,1 @@" 1 1 1 1
        [⟨"x", LineType.Context, some 1, some 1⟩]).old_start ∧
    (DiffHunk.mk "@@ -1,1 +1,1 @@" 1 1 1 1
        [⟨"x", LineType.Context, some 1, some 1⟩]).old_lines =
      (DiffHunk.mk "@@ -9,1 +9,1 @@" 1 1 1 1
        [⟨"x", LineType.Context, some 1, some 1⟩]).old_lines ∧
    (DiffHunk.mk "@@ -1,1 +1,1 @@" 1 1 1 1
        [⟨"x", LineType.Context, some 1, some 1⟩]).new_start =
      (DiffHunk.mk "@@ -9,1 +9,1 @@" 1 1 1 1
        [⟨"x", LineType.Context, some 1, some 1⟩]).new_start ∧
    (DiffHunk.mk "@@ -1,1 +1,1 @@" 1 1 1 1
        [⟨"x", LineType.Context, some 1, some 1⟩]).new_lines =
      (DiffHunk.mk "@@ -9,1 +9,1 @@" 1 1 1 1
        [⟨"x", LineType.Context, some 1, some 1⟩]).new_lines ∧
    (DiffHunk.mk "@@ -1,1 +1,1 @@" 1 1 1 1
        [⟨"x", LineType.Context, some 1, some 1⟩]).lines =
      (DiffHunk.mk "@@ -9,1 +9,1 @@" 1 1 1 1
        [⟨"x", LineType.Context, some 1, some 1⟩]).lines ∧
    stage_hunk_patch "a.txt"
        (DiffHunk.mk "@@ -1,1 +1,1 @@" 1 1 1 1
          [⟨"x", LineType.Context, some 1, some 1⟩]) ≠
      stage_hunk_patch "a.txt"
        (DiffHunk.mk "@@ -9,1 +9,1 @@" 1 1 1 1
          [⟨"x", LineType.Context, some 1, some 1⟩]) := by
  refine ⟨rfl, rfl, rfl, rfl, rfl, ?_⟩
  decide

/-- Claim C10 (amended): `unstage_hunk` never reads the stored header
string; its synthesized patch document and its application to the index are
identical for any two hunks that differ only in the header string.  (For
`stage_hunk` the claim fails: the stored header string is embedded verbatim
in the forward patch, so it is not retained for display only.) -/
theorem claim_C10 (p : String) (h : DiffHunk) (s : String)
    (index : List String) :
    unstage_hunk_patch p { h with header := s } = unstage_hunk_patch p h ∧
    unstage_hunk { h with header := s } index = unstage_hunk h index := by
  exact ⟨rfl, rfl⟩

theorem status_fold_eq :
    ∀ (entries : List (String × StatusFlags))
      (acc : List FileChange × List FileChange),
      entries.foldl
        (fun acc e =>
          let c := classifyEntry e.1 e.2
          (acc.1 ++ c.1, acc.2 ++ c.2)) acc =
      (acc.1 ++ entries.flatMap (fun e => (classifyEntry e.1 e.2).1),
       acc.2 ++ entries.flatMap (fun e => (classifyEntry e.1 e.2).2))
  | [], acc => by simp
  | e :: es, acc => by
      rw [List.foldl_cons, status_fold_eq es]
      simp [List.append_assoc]

/-- Claim C6: for every status entry, the staged bucket entry is decided by
the index-level flags with first-match-wins priority new, modified,
deleted, renamed mapping to Added, Modified, Deleted, Renamed; the unstaged
bucket entry is decided independently by the working-tree flags with
priority new, modified, deleted, renamed mapping to Untracked, Modified,
Deleted, Renamed; a conflicted path is additionally appended to the
unstaged bucket as Conflicted; and `status` concatenates the per-entry
buckets in entry order, so one path may appear in both buckets. -/
theorem claim_C6 (path : String) (f : StatusFlags)
    (entries : List (String × StatusFlags)) :
    classifyEntry path f = classifyEntrySpec path f ∧
    (status entries).staged =
      entries.flatMap (fun e => (classifyEntry e.1 e.2).1) ∧
    (status entries).unstaged =
      entries.flatMap (fun e => (classifyEntry e.1 e.2).2) := by
  refine ⟨?_, ?_, ?_⟩
  · rcases f with ⟨a, b, c, d, e, g, i, j, k⟩
    cases a <;> cases b <;> cases c <;> cases d <;> cases e <;> cases g <;>
      cases i <;> cases j <;> cases k <;> rfl
  · unfold status
    rw [status_fold_eq]
    simp
  · unfold status
    rw [status_fold_eq]
    simp

/-- Claim C3: `get_diff` with `staged = false` on a path absent from the
index returns exactly one hunk with `old_start = 0`, `old_lines = 0`,
`new_start = 1`, `new_lines = N` for an `N`-line file, containing exactly
`N` lines, each an Addition with no old line number and with
`new_lineno = i + 1` for the `i`-th file line, in file order. -/
theorem claim_C3 (L : List String) (events : List DiffEvent) :
    ∃ h : DiffHunk,
      get_diff false false L events = [h] ∧
      h.old_start = 0 ∧ h.old_lines = 0 ∧ h.new_start = 1 ∧
      h.new_lines = L.length ∧ h.lines.length = L.length ∧
      ∀ i : Nat, h.lines[i]? =
        (L[i]?).map (fun s => ⟨s, LineType.Addition, none, some (i + 1)⟩) := by
  refine ⟨_, rfl, rfl, rfl, rfl, rfl, ?_, ?_⟩
  · simp [get_untracked_file_diff]
  · intro i
    simp only [get_untracked_file_diff]
    rw [List.getElem?_map, List.getElem?_enum]
    cases L[i]? <;> rfl

/-- Claim C7 (corrected), counterexample to the claim as stated: for the
line event with origin `+` and content `"a\n\n"`, the stored content is the
event content with all trailing newlines stripped (`"a"`), not with a
single trailing newline stripped (`"a\n"`), because the handler uses
`trim_end_matches('\n')` (repo.rs 348). -/
theorem claim_C7_counterexample :
    processEvent ⟨[], some ⟨"hd", 1, 0, 1, 1, []⟩, 1, 1⟩
        (DiffEvent.line '+' "a\n\n") =
      ⟨[], some ⟨"hd", 1, 0, 1, 1,
        [⟨"a", LineType.Addition, none, some 1⟩]⟩, 1, 2⟩ ∧
    stripSingleTrailingNewline "a\n\n" = "a\n" ∧
    ("a" : String) ≠ "a\n" := by
  refine ⟨by decide, by decide, by decide⟩

/-- Claim C7 (amended): in the per-line handling of the diff extractor,
with a current hunk in progress, origin `+` or `>` appends an Addition that
takes and increments only the running new-line counter, origin `-` or `<`
appends a Deletion that takes and increments only the old-line counter,
origin ` ` or `=` appends a Context taking and incrementing both counters,
any other origin leaves the state entirely unchanged, and the stored
content is the event content with all trailing newline characters
stripped. -/
theorem claim_C7 (st : FoldState) (h : DiffHunk) (hcur : st.current = some h)
    (origin : Char) (content : String) :
    ((origin = '+' ∨ origin = '>') →
      processEvent st (DiffEvent.line origin content) =
        { st with
            current := some { h with lines := h.lines ++
              [⟨trimEndNewlines content, LineType.Addition, none,
                some st.new_lineno⟩] }
            new_lineno := st.new_lineno + 1 }) ∧
    ((origin = '-' ∨ origin = '<') →
      processEvent st (DiffEvent.line origin content) =
        { st with
            current := some { h with lines := h.lines ++
              [⟨trimEndNewlines content, LineType.Deletion,
                some st.old_lineno, none⟩] }
            old_lineno := st.old_lineno + 1 }) ∧
    ((origin = ' ' ∨ origin = '=') →
      processEvent st (DiffEvent.line origin content) =
        { st with
            current := some { h with lines := h.lines ++
              [⟨trimEndNewlines content, LineType.Context,
                some st.old_lineno, some st.new_lineno⟩] }
            old_lineno := st.old_lineno + 1
            new_lineno := st.new_lineno + 1 }) ∧
    (¬(origin = '+' ∨ origin = '>' ∨ origin = '-' ∨ origin = '<' ∨
        origin = ' ' ∨ origin = '=') →
      processEvent st (DiffEvent.line origin content) = st) := by
  rcases st with ⟨hk, cur, ol, nl⟩
  simp only [FoldState.mk.injEq] at hcur ⊢
  cases hcur
  refine ⟨?_, ?_, ?_, ?_⟩
  · rintro (rfl | rfl) <;> rfl
  · rintro (rfl | rfl) <;> rfl
  · rintro (rfl | rfl) <;> rfl
  · intro hyp
    have h1 : ¬(origin = '+' ∨ origin = '>') := fun hc => hyp (by tauto)
    have h2 : ¬(origin = '-' ∨ origin = '<') := fun hc => hyp (by tauto)
    have h3 : ¬(origin = ' ' ∨ origin = '=') := fun hc => hyp (by tauto)
    simp [processEvent, h1, h2, h3]

/-- Concrete instantiation of claim C7's amended theorem: a `+` line event
with content `"z\n"` appends an Addition carrying the current new-line
counter and the stripped content. -/
theorem claim_C7_witness :
    processEvent ⟨[], some ⟨"hd", 1, 2, 3, 4, []⟩, 1, 3⟩
        (DiffEvent.line '+' "z\n") =
      ⟨[], some ⟨"hd", 1, 2, 3, 4,
        [⟨"z", LineType.Addition, none, some 3⟩]⟩, 1, 4⟩ :=
  (claim_C7 ⟨[], some ⟨"hd", 1, 2, 3, 4, []⟩, 1, 3⟩ ⟨"hd", 1, 2, 3, 4, []⟩
    rfl '+' "z\n").1 (Or.inl rfl)

theorem processEvent_line_add (hk : List DiffHunk) (h : DiffHunk)
    (ol nl : Nat) (c : Char) (s : String) (hc : c = '+' ∨ c = '>') :
    processEvent ⟨hk, some h, ol, nl⟩ (DiffEvent.line c s) =
      ⟨hk, some { h with lines := h.lines ++
        [⟨trimEndNewlines s, LineType.Addition, none, some nl⟩] },
       ol, nl + 1⟩ := by
  rcases hc with rfl | rfl <;> rfl

theorem processEvent_line_del (hk : List DiffHunk) (h : DiffHunk)
    (ol nl : Nat) (c : Char) (s : String) (hc : c = '-' ∨ c = '<') :
    processEvent ⟨hk, some h, ol, nl⟩ (DiffEvent.line c s) =
      ⟨hk, some { h with lines := h.lines ++
        [⟨trimEndNewlines s, LineType.Deletion, some ol, none⟩] },
       ol + 1, nl⟩ := by
  rcases hc with rfl | rfl <;> rfl

theorem processEvent_line_ctx (hk : List DiffHunk) (h : DiffHunk)
    (ol nl : Nat) (c : Char) (s : String) (hc : c = ' ' ∨ c = '=') :
    processEvent ⟨hk, some h, ol, nl⟩ (DiffEvent.line c s) =
      ⟨hk, some { h with lines := h.lines ++
        [⟨trimEndNewlines s, LineType.Context, some ol, some nl⟩] },
       ol + 1, nl + 1⟩ := by
  rcases hc with rfl | rfl <;> rfl

theorem processEvent_line_skip (hk : List DiffHunk) (h : DiffHunk)
    (ol nl : Nat) (c : Char) (s : String)
    (h1 : ¬(c = '+' ∨ c = '>')) (h2 : ¬(c = '-' ∨ c = '<'))
    (h3 : ¬(c = ' ' ∨ c = '=')) :
    processEvent ⟨hk, some h, ol, nl⟩ (DiffEvent.line c s) =
      ⟨hk, some h, ol, nl⟩ := by
  simp [processEvent, h1, h2, h3]

theorem isNewOrigin_iff {c : Char} :
    isNewOrigin c = true ↔ (c = '+' ∨ c = '>') ∨ (c = ' ' ∨ c = '=') := by
  simp [isNewOrigin, or_assoc]

theorem isOldOrigin_iff {c : Char} :
    isOldOrigin c = true ↔ (c = '-' ∨ c = '<') ∨ (c = ' ' ∨ c = '=') := by
  simp [isOldOrigin, or_assoc]

/-- Folding the line events of one hunk over a state with a current hunk
appends classified lines to the current hunk, advances each counter by the
number of events its side consumes, and touches neither the flushed hunk
list nor the current hunk's header fields. -/
theorem processLines_fold :
    ∀ (ls : List (Char × String)) (hk : List DiffHunk) (h : DiffHunk)
      (ol nl : Nat),
      ∃ extra : List DiffLine,
        (ls.map (fun p => DiffEvent.line p.1 p.2)).foldl processEvent
            ⟨hk, some h, ol, nl⟩ =
          ⟨hk, some { h with lines := h.lines ++ extra },
            ol + ls.countP (fun p => isOldOrigin p.1),
            nl + ls.countP (fun p => isNewOrigin p.1)⟩ ∧
        extra.countP isNewSideLine = ls.countP (fun p => isNewOrigin p.1) ∧
        extra.countP isOldSideLine = ls.countP (fun p => isOldOrigin p.1)
  | [], hk, h, ol, nl => ⟨[], by simp⟩
  | (c, s) :: ls, hk, h, ol, nl => by
      by_cases h1 : c = '+' ∨ c = '>'
      · have hno : isNewOrigin c = true := isNewOrigin_iff.mpr (Or.inl h1)
        have hoo : isOldOrigin c = false := by
          rcases h1 with rfl | rfl <;> rfl
        obtain ⟨extra, heq, hn, ho⟩ := processLines_fold ls hk
          { h with lines := h.lines ++
            [⟨trimEndNewlines s, LineType.Addition, none, some nl⟩] }
          ol (nl + 1)
        refine ⟨⟨trimEndNewlines s, LineType.Addition, none, some nl⟩ ::
          extra, ?_, ?_, ?_⟩
        · rw [List.map_cons, List.foldl_cons,
            processEvent_line_add hk h ol nl c s h1, heq]
          simp [List.countP_cons, hno, hoo, List.append_assoc]
          omega
        · simp [List.countP_cons, hno, hn, isNewSideLine]
        · simp [List.countP_cons, hoo, ho, isOldSideLine]
      · by_cases h2 : c = '-' ∨ c = '<'
        · have hno : isNewOrigin c = false := by
            rcases h2 with rfl | rfl <;> rfl
          have hoo : isOldOrigin c = true := isOldOrigin_iff.mpr (Or.inl h2)
          obtain ⟨extra, heq, hn, ho⟩ := processLines_fold ls hk
            { h with lines := h.lines ++
              [⟨trimEndNewlines s, LineType.Deletion, some ol, none⟩] }
            (ol + 1) nl
          refine ⟨⟨trimEndNewlines s, LineType.Deletion, some ol, none⟩ ::
            extra, ?_, ?_, ?_⟩
          · rw [List.map_cons, List.foldl_cons,
              processEvent_line_del hk h ol nl c s h2, heq]
            simp [List.countP_cons, hno, hoo, List.append_assoc]
            omega
          · simp [List.countP_cons, hno, hn, isNewSideLine]
          · simp [List.countP_cons, hoo, ho, isOldSideLine]
        · by_cases h3 : c = ' ' ∨ c = '='
          · have hno : isNewOrigin c = true :=
              isNewOrigin_iff.mpr (Or.inr h3)
            have hoo : isOldOrigin c = true :=
              isOldOrigin_iff.mpr (Or.inr h3)
            obtain ⟨extra, heq, hn, ho⟩ := processLines_fold ls hk
              { h with lines := h.lines ++
                [⟨trimEndNewlines s, LineType.Context, some ol, some nl⟩] }
              (ol + 1) (nl + 1)
            refine ⟨⟨trimEndNewlines s, LineType.Context, some ol, some nl⟩ ::
              extra, ?_, ?_, ?_⟩
            · rw [List.map_cons, List.foldl_cons,
                processEvent_line_ctx hk h ol nl c s h3, heq]
              simp [List.countP_cons, hno, hoo, List.append_assoc]
              omega
            · simp [List.countP_cons, hno, hn, isNewSideLine]
            · simp [List.countP_cons, hoo, ho, isOldSideLine]
          · have hno : isNewOrigin c = false := by
              rw [← Bool.not_eq_true, isNewOrigin_iff]
              tauto
            have hoo : isOldOrigin c = false := by
              rw [← Bool.not_eq_true, isOldOrigin_iff]
              tauto
            obtain ⟨extra, heq, hn, ho⟩ := processLines_fold ls hk h ol nl
            refine ⟨extra, ?_, ?_, ?_⟩
            · rw [List.map_cons, List.foldl_cons,
                processEvent_line_skip hk h ol nl c s h1 h2 h3, heq]
              simp [List.countP_cons, hno, hoo]
            · simp [List.countP_cons, hno, hn]
            · simp [List.countP_cons, hoo, ho]

/-- Processing one well-formed hunk segment flushes the pending hunk and
leaves a current hunk whose line counts reconcile with its header. -/
theorem processSeg_fold (info : HunkInfo) (ls : List (Char × String))
    (hk : List DiffHunk) (cur : Option DiffHunk) (ol nl : Nat)
    (hwf : segWellFormed (info, ls)) :
    ∃ h' : DiffHunk,
      (segEvents info ls).foldl processEvent ⟨hk, cur, ol, nl⟩ =
        ⟨hk ++ cur.toList, some h',
          info.old_start + ls.countP (fun p => isOldOrigin p.1),
          info.new_start + ls.countP (fun p => isNewOrigin p.1)⟩ ∧
      hunkCountsConsistent h' := by
  unfold segEvents
  rw [List.foldl_cons]
  have hstep : processEvent ⟨hk, cur, ol, nl⟩ (DiffEvent.hunkStart info) =
      ⟨hk ++ cur.toList,
        some ⟨rustTrim info.header, info.old_start, info.old_lines,
          info.new_start, info.new_lines, []⟩,
        info.old_start, info.new_start⟩ := rfl
  rw [hstep]
  obtain ⟨extra, heq, hn, ho⟩ := processLines_fold ls (hk ++ cur.toList)
    ⟨rustTrim info.header, info.old_start, info.old_lines,
      info.new_start, info.new_lines, []⟩ info.old_start info.new_start
  refine ⟨_, heq, ?_, ?_⟩
  · simpa [hn] using hwf.1
  · simpa [ho] using hwf.2

/-- Processing any sequence of well-formed hunk segments preserves count
consistency of every flushed hunk and of the pending hunk. -/
theorem processSegs_fold :
    ∀ (segs : List (HunkInfo × List (Char × String))) (hk : List DiffHunk)
      (cur : Option DiffHunk) (ol nl : Nat),
      (∀ h ∈ hk, hunkCountsConsistent h) →
      (∀ h, cur = some h → hunkCountsConsistent h) →
      (∀ seg ∈ segs, segWellFormed seg) →
      (∀ h ∈ ((segsEvents segs).foldl processEvent
          ⟨hk, cur, ol, nl⟩).hunks, hunkCountsConsistent h) ∧
      (∀ h, ((segsEvents segs).foldl processEvent
          ⟨hk, cur, ol, nl⟩).current = some h → hunkCountsConsistent h)
  | [], hk, cur, ol, nl => by
      intro hhk hcur _
      simpa [segsEvents] using ⟨hhk, hcur⟩
  | (info, ls) :: segs, hk, cur, ol, nl => by
      intro hhk hcur hwf
      have hsplit : segsEvents ((info, ls) :: segs) =
          segEvents info ls ++ segsEvents segs := by
        simp [segsEvents]
      rw [hsplit, List.foldl_append]
      obtain ⟨h', heq, hcons⟩ := processSeg_fold info ls hk cur ol nl
        (hwf _ (List.mem_cons_self _ _))
      rw [heq]
      apply processSegs_fold segs
      · intro h hm
        rcases List.mem_append.mp hm with hm' | hm'
        · exact hhk h hm'
        · rcases cur with _ | c
          · simp at hm'
          · simp at hm'
            exact hcur h (by rw [hm'])
      · intro h hEq
        cases hEq
        exact hcons
      · intro seg hm
        exact hwf seg (List.mem_cons_of_mem _ hm)

/-- Claim C8: every hunk the diff extractor produces from a well-formed
callback stream has its Addition+Context line count equal to `new_lines`
and its Deletion+Context line count equal to `old_lines`; the synthetic
untracked-file hunk also satisfies the invariant, with `old_lines = 0` and
`old_start = 0`. -/
theorem claim_C8 (segs : List (HunkInfo × List (Char × String)))
    (hwf : ∀ seg ∈ segs, segWellFormed seg) (L : List String) :
    (∀ h ∈ runDiffFold (segsEvents segs), hunkCountsConsistent h) ∧
    (∀ h ∈ get_untracked_file_diff L,
      hunkCountsConsistent h ∧ h.old_lines = 0 ∧ h.old_start = 0) := by
  constructor
  · intro h hm
    unfold runDiffFold at hm
    obtain ⟨h1, h2⟩ := processSegs_fold segs [] none 0 0
      (by simp) (by simp) hwf
    rcases List.mem_append.mp hm with hm' | hm'
    · exact h1 h hm'
    · rcases hc : ((segsEvents segs).foldl processEvent
          ⟨[], none, 0, 0⟩).current with _ | c
      · rw [hc] at hm'
        simp at hm'
      · rw [hc] at hm'
        simp at hm'
        exact h2 h (by rw [hc, hm'])
  · intro h hm
    simp only [get_untracked_file_diff, List.mem_singleton] at hm
    subst hm
    refine ⟨⟨?_, ?_⟩, rfl, rfl⟩
    · rw [List.countP_eq_length.mpr ?_]
      · simp
      · intro a ham
        simp only [List.mem_map] at ham
        obtain ⟨p, _, hp⟩ := ham
        rw [← hp]
        rfl
    · rw [List.countP_eq_zero.mpr ?_]
      intro a ham
      simp only [List.mem_map] at ham
      obtain ⟨p, _, hp⟩ := ham
      rw [← hp]
      simp [isOldSideLine]

/-- Success characterization of the modelled patch application. -/
theorem applyHunkLines_ok (os oc nc : Nat) (pl : List PatchLine)
    (content result : List String) :
    applyHunkLines os oc nc pl content = .ok result ↔
      (hunkOldSide pl).length = oc ∧ (hunkNewSide pl).length = nc ∧
      effStart os oc ≤ content.length ∧
      (content.drop (effStart os oc)).take oc = hunkOldSide pl ∧
      result = content.take (effStart os oc) ++ hunkNewSide pl ++
        content.drop (effStart os oc + oc) := by
  simp only [applyHunkLines]
  split_ifs with h1 h2 h3
  · simp only [false_iff]
    intro hc
    rcases h1 with h1 | h1 <;> tauto
  · push_neg at h1
    simp only [false_iff]
    omega
  · push_neg at h1
    simp only [false_iff]
    intro hc
    exact h3 hc.2.2.2.1
  · push_neg at h1
    push_neg at h3
    simp only [Except.ok.injEq]
    constructor
    · intro hc
      exact ⟨h1.1, h1.2, by omega, h3, hc.symm⟩
    · intro hc
      exact hc.2.2.2.2.symm

/-- Addition and Context contents of a line list, in order. -/
def newSideContents (ls : List DiffLine) : List String :=
  ls.filterMap (fun l => if isNewSideLine l then some l.content else none)

/-- Deletion and Context contents of a line list, in order. -/
def oldSideContents (ls : List DiffLine) : List String :=
  ls.filterMap (fun l => if isOldSideLine l then some l.content else none)

theorem oldSide_fwd : ∀ ls : List DiffLine,
    hunkOldSide (ls.map
      (fun l => ⟨forward_line_char l.line_type, l.content⟩)) =
      oldSideContents ls
  | [] => rfl
  | ⟨c, t, o, n⟩ :: ls => by
      cases t
      · exact congrArg (List.cons c) (oldSide_fwd ls)
      · exact oldSide_fwd ls
      · exact congrArg (List.cons c) (oldSide_fwd ls)

theorem newSide_fwd : ∀ ls : List DiffLine,
    hunkNewSide (ls.map
      (fun l => ⟨forward_line_char l.line_type, l.content⟩)) =
      newSideContents ls
  | [] => rfl
  | ⟨c, t, o, n⟩ :: ls => by
      cases t
      · exact congrArg (List.cons c) (newSide_fwd ls)
      · exact congrArg (List.cons c) (newSide_fwd ls)
      · exact newSide_fwd ls

theorem oldSide_inv : ∀ ls : List DiffLine,
    hunkOldSide (ls.map
      (fun l => ⟨inverse_line_char l.line_type, l.content⟩)) =
      newSideContents ls
  | [] => rfl
  | ⟨c, t, o, n⟩ :: ls => by
      cases t
      · exact congrArg (List.cons c) (oldSide_inv ls)
      · exact congrArg (List.cons c) (oldSide_inv ls)
      · exact oldSide_inv ls

theorem newSide_inv : ∀ ls : List DiffLine,
    hunkNewSide (ls.map
      (fun l => ⟨inverse_line_char l.line_type, l.content⟩)) =
      oldSideContents ls
  | [] => rfl
  | ⟨c, t, o, n⟩ :: ls => by
      cases t
      · exact congrArg (List.cons c) (newSide_inv ls)
      · exact newSide_inv ls
      · exact congrArg (List.cons c) (newSide_inv ls)

/-- The old and new sides of the inverted patch are the new and old sides
of the forward patch. -/
theorem sides_swap (ls : List DiffLine) :
    hunkOldSide (ls.map (fun l => ⟨inverse_line_char l.line_type, l.content⟩))
      = hunkNewSide
        (ls.map (fun l => ⟨forward_line_char l.line_type, l.content⟩)) ∧
    hunkNewSide (ls.map (fun l => ⟨inverse_line_char l.line_type, l.content⟩))
      = hunkOldSide
        (ls.map (fun l => ⟨forward_line_char l.line_type, l.content⟩)) :=
  ⟨(oldSide_inv ls).trans (newSide_fwd ls).symm,
   (newSide_inv ls).trans (oldSide_fwd ls).symm⟩

/-- Claim C1 (corrected), counterexample to the claim as stated: the hunk
`@@ -1,1 +3,1 @@` replacing line `"a"` by `"b"` has line counts consistent
with its header fields, stages cleanly on the one-line index `["a"]`, yet
unstaging immediately afterwards fails instead of restoring the index,
because the inverted patch targets position `new_start = 3`, which the
one-line index does not reach. -/
theorem claim_C1_counterexample :
    hunkCountsConsistent ⟨"@@ -1,1 +3,1 @@", 1, 1, 3, 1,
      [⟨"a", LineType.Deletion, some 1, none⟩,
       ⟨"b", LineType.Addition, none, some 3⟩]⟩ ∧
    stage_hunk ⟨"@@ -1,1 +3,1 @@", 1, 1, 3, 1,
      [⟨"a", LineType.Deletion, some 1, none⟩,
       ⟨"b", LineType.Addition, none, some 3⟩]⟩ ["a"] = .ok ["b"] ∧
    unstage_hunk ⟨"@@ -1,1 +3,1 @@", 1, 1, 3, 1,
      [⟨"a", LineType.Deletion, some 1, none⟩,
       ⟨"b", LineType.Addition, none, some 3⟩]⟩ ["b"] =
      .error "hunk does not apply" := by
  refine ⟨by decide, rfl, rfl⟩

/-- Claim C1 (amended): for every hunk whose line counts are consistent
with its header fields and whose effective old and new positions coincide,
staging the hunk and then unstaging it with no intervening change restores
the index to its pre-stage state byte-for-byte. -/
theorem claim_C1 (h : DiffHunk) (index index' : List String)
    (hcnt : hunkCountsConsistent h)
    (hpos : effStart h.old_start h.old_lines =
      effStart h.new_start h.new_lines)
    (hstage : stage_hunk h index = .ok index') :
    unstage_hunk h index' = .ok index := by
  obtain ⟨hlo, hln, hstart, hslice, hres⟩ :=
    (applyHunkLines_ok h.old_start h.old_lines h.new_lines
      (forwardPatchLines h) index index').mp hstage
  have hswap1 : hunkOldSide (inversePatchLines h) =
      hunkNewSide (forwardPatchLines h) := (sides_swap h.lines).1
  have hswap2 : hunkNewSide (inversePatchLines h) =
      hunkOldSide (forwardPatchLines h) := (sides_swap h.lines).2
  have htake : (index.take (effStart h.old_start h.old_lines)).length =
      effStart h.old_start h.old_lines := by
    rw [List.length_take]
    omega
  apply (applyHunkLines_ok h.new_start h.new_lines h.old_lines
    (inversePatchLines h) index' index).mpr
  rw [← hpos, hswap1, hswap2]
  have hdrop : index'.drop (effStart h.old_start h.old_lines) =
      hunkNewSide (forwardPatchLines h) ++
        index.drop (effStart h.old_start h.old_lines + h.old_lines) := by
    rw [hres, List.append_assoc, List.drop_left' htake]
  have h1 : index'.take (effStart h.old_start h.old_lines) =
      index.take (effStart h.old_start h.old_lines) := by
    rw [hres, List.append_assoc]
    exact List.take_left' htake
  have h2 : index'.drop (effStart h.old_start h.old_lines + h.new_lines) =
      index.drop (effStart h.old_start h.old_lines + h.old_lines) := by
    rw [← List.drop_drop, hdrop, List.drop_left' hln]
  refine ⟨hln, hlo, ?_, ?_, ?_⟩
  · rw [hres]
    simp only [List.length_append]
    omega
  · rw [hdrop, List.take_left' hln]
  · rw [h1, h2, ← hslice, List.append_assoc, ← List.drop_drop,
      List.take_append_drop, List.take_append_drop]

/-- Concrete instantiation of claim C1's amended theorem: staging the
one-line replacement hunk `@@ -1,1 +1,1 @@` on index `["a"]` yields
`["b"]`, and unstaging restores `["a"]`. -/
theorem claim_C1_witness :
    unstage_hunk ⟨"@@ -1,1 +1,1 @@", 1, 1, 1, 1,
      [⟨"a", LineType.Deletion, some 1, none⟩,
       ⟨"b", LineType.Addition, none, some 1⟩]⟩ ["b"] = .ok ["a"] :=
  claim_C1 ⟨"@@ -1,1 +1,1 @@", 1, 1, 1, 1,
      [⟨"a", LineType.Deletion, some 1, none⟩,
       ⟨"b", LineType.Addition, none, some 1⟩]⟩ ["a"] ["b"]
    (by decide) rfl rfl

/-- Claim C2: whenever the synthesized patch's old-side lines do not match
the current index content at the patch's position, `stage_hunk` and
`unstage_hunk` return an error rather than force-applying, and the index is
unchanged on that error — no partial application occurs. -/
theorem claim_C2 (h : DiffHunk) (index : List String) :
    ((index.drop (effStart h.old_start h.old_lines)).take h.old_lines ≠
        hunkOldSide (forwardPatchLines h) →
      (∀ i', stage_hunk h index ≠ .ok i') ∧
        indexAfter (stage_hunk h index) index = index) ∧
    ((index.drop (effStart h.new_start h.new_lines)).take h.new_lines ≠
        hunkOldSide (inversePatchLines h) →
      (∀ i', unstage_hunk h index ≠ .ok i') ∧
        indexAfter (unstage_hunk h index) index = index) := by
  constructor
  · intro hmis
    have hok : ∀ i', stage_hunk h index ≠ .ok i' := by
      intro i' hc
      obtain ⟨_, _, _, hslice, _⟩ :=
        (applyHunkLines_ok h.old_start h.old_lines h.new_lines
          (forwardPatchLines h) index i').mp hc
      exact hmis hslice
    refine ⟨hok, ?_⟩
    rcases hc : stage_hunk h index with e | i'
    · rfl
    · exact absurd hc (hok i')
  · intro hmis
    have hok : ∀ i', unstage_hunk h index ≠ .ok i' := by
      intro i' hc
      obtain ⟨_, _, _, hslice, _⟩ :=
        (applyHunkLines_ok h.new_start h.new_lines h.old_lines
          (inversePatchLines h) index i').mp hc
      exact hmis hslice
    refine ⟨hok, ?_⟩
    rcases hc : unstage_hunk h index with e | i'
    · rfl
    · exact absurd hc (hok i')

/-- Concrete instantiation of claim C2: staging the replacement hunk on an
index whose line is `"x"` instead of `"a"` fails and leaves the index
unchanged. -/
theorem claim_C2_witness :
    (∀ i', stage_hunk ⟨"@@ -1,1 +1,1 @@", 1, 1, 1, 1,
      [⟨"a", LineType.Deletion, some 1, none⟩,
       ⟨"b", LineType.Addition, none, some 1⟩]⟩ ["x"] ≠ .ok i') ∧
    indexAfter (stage_hunk ⟨"@@ -1,1 +1,1 @@", 1, 1, 1, 1,
      [⟨"a", LineType.Deletion, some 1, none⟩,
       ⟨"b", LineType.Addition, none, some 1⟩]⟩ ["x"]) ["x"] = ["x"] :=
  (claim_C2 ⟨"@@ -1,1 +1,1 @@", 1, 1, 1, 1,
      [⟨"a", LineType.Deletion, some 1, none⟩,
       ⟨"b", LineType.Addition, none, some 1⟩]⟩ ["x"]).1 (by decide)

/-- Concrete instantiation of claim C8: a one-hunk stream with one context,
one deletion and one addition line yields a hunk whose counts reconcile
with its `@@ -1,2 +1,2 @@` header. -/
theorem claim_C8_witness :
    hunkCountsConsistent ⟨"@@ -1,2 +1,2 @@", 1, 2, 1, 2,
      [⟨"a", LineType.Context, some 1, some 1⟩,
       ⟨"b", LineType.Deletion, some 2, none⟩,
       ⟨"c", LineType.Addition, none, some 2⟩]⟩ :=
  (claim_C8 [(⟨"@@ -1,2 +1,2 @@\n", 1, 2, 1, 2⟩,
      [(' ', "a\n"), ('-', "b\n"), ('+', "c\n")])]
    (by decide) ["x"]).1 _ (by decide)

/-- Claim C9: `log` returns at most `limit` commits (`limit` defaulting to
500) in time-descending order; its traversal roots are all local and remote
branch tips together, falling back to `HEAD` alone when no branch tip
exists, and when there is no commit at all it returns the empty sequence
rather than an error. -/
theorem claim_C9 (store : List CommitData) (lt rt : List String)
    (head : Option String) (limit : Option Nat) :
    (log store lt rt head limit).length ≤ limit.getD 500 ∧
    List.Sorted (fun a b : CommitData => b.timestamp ≤ a.timestamp)
      (log store lt rt head limit) ∧
    (lt ++ rt ≠ [] →
      log store lt rt head limit =
        (walkCommits store (lt ++ rt)).take (limit.getD 500)) ∧
    (∀ o, lt = [] → rt = [] → head = some o →
      log store lt rt head limit =
        (walkCommits store [o]).take (limit.getD 500)) ∧
    (lt = [] → rt = [] → head = none → log store lt rt head limit = []) := by
  have hsorted : ∀ roots, List.Sorted
      (fun a b : CommitData => b.timestamp ≤ a.timestamp)
      (walkCommits store roots) := by
    intro roots
    unfold walkCommits
    haveI : IsTotal CommitData
        (fun a b : CommitData => b.timestamp ≤ a.timestamp) :=
      ⟨fun a b => le_total b.timestamp a.timestamp⟩
    haveI : IsTrans CommitData
        (fun a b : CommitData => b.timestamp ≤ a.timestamp) :=
      ⟨fun _ _ _ hab hbc => le_trans hbc hab⟩
    exact List.sorted_insertionSort _ _
  have hsortedTake : ∀ roots n, List.Sorted
      (fun a b : CommitData => b.timestamp ≤ a.timestamp)
      ((walkCommits store roots).take n) := fun roots n =>
    List.Pairwise.sublist (List.take_sublist n _) (hsorted roots)
  rcases hlr : lt ++ rt with _ | ⟨x, xs⟩
  · obtain ⟨hlt, hrt⟩ := List.append_eq_nil.mp hlr
    subst hlt
    subst hrt
    rcases head with _ | o
    · have hlog : log store [] [] none limit = [] := by
        simp [log]
      refine ⟨by simp [hlog], by simp [hlog], ?_, ?_, ?_⟩
      · intro hc
        simp at hc
      · intro o' _ _ hco
        exact Option.noConfusion hco
      · intro _ _ _
        exact hlog
    · have hlog : log store [] [] (some o) limit =
          (walkCommits store [o]).take (limit.getD 500) := by
        simp [log]
      refine ⟨?_, ?_, ?_, ?_, ?_⟩
      · rw [hlog]
        exact List.length_take_le _ _
      · rw [hlog]
        exact hsortedTake [o] (limit.getD 500)
      · intro hc
        simp at hc
      · intro o' _ _ hco
        cases hco
        exact hlog
      · intro _ _ hco
        exact Option.noConfusion hco
  · have hlog : log store lt rt head limit =
        (walkCommits store (x :: xs)).take (limit.getD 500) := by
      simp [log, hlr]
    refine ⟨?_, ?_, ?_, ?_, ?_⟩
    · rw [hlog]
      exact List.length_take_le _ _
    · rw [hlog]
      exact hsortedTake (x :: xs) (limit.getD 500)
    · intro _
      rw [hlog]
    · intro o' hlt hrt hco
      rw [hlt, hrt] at hlr
      exact absurd hlr.symm (List.cons_ne_nil x xs)
    · intro hlt hrt hco
      rw [hlt, hrt] at hlr
      exact absurd hlr.symm (List.cons_ne_nil x xs)

/-- Concrete instantiation of claim C9: on a two-commit store with a single
local branch tip at `"a"`, `log` returns both commits in time-descending
order. -/
theorem claim_C9_witness :
    log [⟨"a", 5, ["b"]⟩, ⟨"b", 3, []⟩] ["a"] [] none none =
      [⟨"a", 5, ["b"]⟩, ⟨"b", 3, []⟩] := by
  have h := (claim_C9 [⟨"a", 5, ["b"]⟩, ⟨"b", 3, []⟩] ["a"] [] none
    none).2.2.1 (by decide)
  rw [h]
  rfl

end GitFrisky
